import Mathlib

/-!
Verification of the `parse-that-json` library (`src/lib.rs`).

The Rust source is shallowly embedded here:

* Rust `&str` slices become `List Char`.  All inputs relevant to the
  properties below are character-for-character identical to the byte-level
  view the Rust code takes (the code only ever tests single-byte ASCII
  characters and slices at their boundaries, so char positions and byte
  positions coincide on such inputs).
* `Value::Number(f64)` is modelled with the exact rational value of the
  matched decimal token (`ℚ`).  The Rust code converts the matched token with
  `str::parse::<f64>()`; the rational is the exact value that conversion
  rounds.
* `HashMap<&str, Value>` is modelled as an association list together with the
  overwriting insert `insertKV`, mirroring `HashMap::insert` (last write
  wins; iteration order of the Rust map is unspecified, and no property below
  depends on it).
* The mutually recursive functions `parse` / `parse_array` / `parse_object`
  are embedded with a fuel parameter (`parseF`, `parse_arrayF`,
  `parse_objectF`); the two `loop`s in the Rust source become the tail
  recursive `arrayLoopF` / `objectLoopF`.  Fuel only forces termination: the
  top-level wrappers supply `3 * length + 3` units, enough for every
  terminating run that the theorems below inspect, and every general theorem
  (fuel-polymorphic or fuel-congruent) is stated so that its truth does not
  depend on the particular bound.
-/

/-- Whitespace, as `str::trim` / `str::trim_start` see it on the ASCII range
(`char::is_whitespace` restricted to ASCII: space, `\t`, `\n`, vertical tab,
form feed, `\r`). -/
def isWs (c : Char) : Bool :=
  c = ' ' || c = '\t' || c = '\n' || c = '\x0b' || c = '\x0c' || c = '\r'

/-- `str::trim_start`. -/
def trimStart (l : List Char) : List Char := l.dropWhile isWs

/-- `str::trim_end`. -/
def trimEnd (l : List Char) : List Char := (l.reverse.dropWhile isWs).reverse

/-- `str::trim` (trims both ends). -/
def trim (l : List Char) : List Char := trimStart (trimEnd l)

/-- The remainder convention used throughout `lib.rs`:
`match rest { x if x.is_empty() => None, x => Some(x) }`. -/
def emptyToNone (l : List Char) : Option (List Char) :=
  if l = [] then none else some l

/-- The `Value` enum of `lib.rs`.  `Number` carries the exact rational value
of the decimal token (see the header comment); `Object` carries the map as an
association list. -/
inductive Value where
  | null : Value
  | bool : Bool → Value
  | number : ℚ → Value
  | string : List Char → Value
  | array : List Value → Value
  | object : List (List Char × Value) → Value

/-- `HashMap::insert`: overwrite the binding for `k` if present, else add
one.  Returns the updated map (the Rust return value, the old binding, is
discarded at the call site). -/
def insertKV (m : List (List Char × Value)) (k : List Char) (v : Value) :
    List (List Char × Value) :=
  match m with
  | [] => [(k, v)]
  | (k', v') :: rest =>
      if k' = k then (k, v) :: rest else (k', v') :: insertKV rest k v

/-- `src.starts_with("null")` followed by `split_at(4)`: `parse_null` of
`lib.rs`. -/
def parse_null (src : List Char) : Option (Unit × Option (List Char)) :=
  if src.take 4 = "null".toList then
    some ((), emptyToNone (src.drop 4))
  else none

/-- `parse_bool` of `lib.rs`: `true` tried before `false`, each an exact
prefix match with `split_at`. -/
def parse_bool (src : List Char) : Option (Bool × Option (List Char)) :=
  if src.take 4 = "true".toList then
    some (true, emptyToNone (src.drop 4))
  else if src.take 5 = "false".toList then
    some (false, emptyToNone (src.drop 5))
  else none

/-- `bytes.get(pos).map_or(false, |c| c.is_ascii_digit())`. -/
def isDigitAt (src : List Char) (pos : Nat) : Bool :=
  match src.get? pos with
  | some c => c.isDigit
  | none => false

/-- Decimal digit run evaluation (what `str::parse::<f64>` does with a digit
run, exactly). -/
def digitsToNat (ds : List Char) : Nat :=
  ds.foldl (fun a c => a * 10 + (c.toNat - '0'.toNat)) 0

/-- The exact rational value of a grammatically valid numeric token
(`sign? int frac? exp?`): the value `str::parse::<f64>` rounds to the nearest
double.  Total; on a token matched by `parse_number`'s scanner it reads the
same sign, integer digits, fraction digits and exponent the scanner
validated. -/
def tokenToRat (t : List Char) : ℚ :=
  let (neg, t1) : Bool × List Char :=
    match t with
    | '-' :: rest => (true, rest)
    | _ => (false, t)
  let intd := t1.takeWhile Char.isDigit
  let t2 := t1.drop intd.length
  let (fracd, t3) : List Char × List Char :=
    match t2 with
    | '.' :: rest => (rest.takeWhile Char.isDigit, rest.drop (rest.takeWhile Char.isDigit).length)
    | _ => ([], t2)
  let (expNeg, expd) : Bool × List Char :=
    match t3 with
    | 'e' :: '-' :: ds => (true, ds.takeWhile Char.isDigit)
    | 'E' :: '-' :: ds => (true, ds.takeWhile Char.isDigit)
    | 'e' :: '+' :: ds => (false, ds.takeWhile Char.isDigit)
    | 'E' :: '+' :: ds => (false, ds.takeWhile Char.isDigit)
    | 'e' :: ds => (false, ds.takeWhile Char.isDigit)
    | 'E' :: ds => (false, ds.takeWhile Char.isDigit)
    | _ => (false, [])
  let mantissa : Nat := digitsToNat intd * 10 ^ fracd.length + digitsToNat fracd
  let num : Int :=
    (if neg then -(mantissa : Int) else (mantissa : Int)) *
      (if expNeg then 1 else 10 ^ digitsToNat expd)
  let den : Nat := 10 ^ fracd.length * (if expNeg then 10 ^ digitsToNat expd else 1)
  mkRat num den

/-- The optional-fraction phase of `parse_number`: from `pos`, if a `.`
follows it must carry at least one digit (`digits_start` check); returns the
position after the fraction, or `none` on a bare dot. -/
def fracEnd (src : List Char) (pos : Nat) : Option Nat :=
  if src.get? pos = some '.' then
    let d := ((src.drop (pos + 1)).takeWhile Char.isDigit).length
    if d = 0 then none else some (pos + 1 + d)
  else some pos

/-- The optional-exponent phase of `parse_number`: `e`/`E`, optional sign,
then at least one digit. -/
def expEnd (src : List Char) (pos : Nat) : Option Nat :=
  if src.get? pos = some 'e' ∨ src.get? pos = some 'E' then
    let pos1 :=
      if src.get? (pos + 1) = some '+' ∨ src.get? (pos + 1) = some '-' then pos + 2
      else pos + 1
    let d := ((src.drop pos1).takeWhile Char.isDigit).length
    if d = 0 then none else some (pos1 + d)
  else some pos

/-- The tail of `parse_number` after the integer part: fraction, exponent,
then the final `(!src.is_empty() && pos > 0)` guard, conversion of
`src[..pos]`, and the remainder `src[pos..]` (empty mapped to `None`). -/
def numTail (src : List Char) (pos : Nat) : Option (ℚ × Option (List Char)) :=
  match fracEnd src pos with
  | none => none
  | some pos1 =>
      match expEnd src pos1 with
      | none => none
      | some pos2 =>
          if src ≠ [] ∧ 0 < pos2 then
            some (tokenToRat (src.take pos2), emptyToNone (src.drop pos2))
          else none

/-- The integer-part `match` of `parse_number`, at position `pos0` (just
after the optional sign): a lone `0` (with no digit allowed after it) or a
nonzero-led digit run; then `numTail`.  The `Some(b'0')` arm is tried before
the guarded digit arm, exactly as in the Rust `match`. -/
def numIntPart (src : List Char) (pos0 : Nat) : Option (ℚ × Option (List Char)) :=
  match src.get? pos0 with
  | some '0' =>
      if isDigitAt src (pos0 + 1) then none
      else numTail src (pos0 + 1)
  | some c =>
      if c.isDigit then
        numTail src (pos0 + 1 + ((src.drop (pos0 + 1)).takeWhile Char.isDigit).length)
      else none
  | none => none

/-- `parse_number` of `lib.rs`: optional `-`, then the integer part and the
rest of the grammar. -/
def parse_number (src : List Char) : Option (ℚ × Option (List Char)) :=
  numIntPart src (if src.get? 0 = some '-' then 1 else 0)

/-- The `while pos < bytes.len()` scan of `parse_string`, position-faithful.
`k` is fuel (the wrapper passes `length + 1`, more than the iteration count,
since `pos` strictly increases).  On `\u` the code only checks that the four
positions exist (`pos + 4 >= bytes.len()` fails the match) and then advances
by 4 — it never validates hex digits.  An unescaped `"` yields the raw span
`src[1..pos]` and the remainder `src[pos+1..]` (empty mapped to `None`).  Raw
control characters (`< 0x20`) fail; running off the end fails. -/
def stringLoop (src : List Char) : Nat → Nat → Bool → Option (List Char × Option (List Char))
  | 0, _, _ => none
  | k + 1, pos, escaped =>
      if h : pos < src.length then
        if escaped then
          if src.get ⟨pos, h⟩ = 'u' then
            if src.length ≤ pos + 4 then none
            else stringLoop src k (pos + 4) false
          else stringLoop src k (pos + 1) false
        else
          match src.get ⟨pos, h⟩ with
          | '\\' => stringLoop src k (pos + 1) true
          | '\"' =>
              some ((src.take pos).drop 1,
                if src.length < pos + 1 then none else emptyToNone (src.drop (pos + 1)))
          | c => if c.toNat < 0x20 then none else stringLoop src k (pos + 1) false
      else none

/-- `parse_string` of `lib.rs`: a leading `"` then the byte scan. -/
def parse_string (src : List Char) : Option (List Char × Option (List Char)) :=
  if src.get? 0 = some '\"' then stringLoop src (src.length + 1) 1 false
  else none

/-- The idiom `remaining = match next { Some(r) => r.trim_start(), None => "" }`
used after each element/value in the two composite loops. -/
def nextRem (next : Option (List Char)) : List Char :=
  match next with
  | some r => trimStart r
  | none => []

mutual

/-- `parse` of `lib.rs` (fueled): trim both ends, succeed emptily on empty,
then try the six recognizers in order; `None` if none match. -/
def parseF : Nat → List Char → Option (Option Value × Option (List Char))
  | 0, _ => none
  | fuel + 1, src =>
      if trim src = [] then some (none, none)
      else
        match parse_null (trim src) with
        | some (_, rem) => some (some .null, rem)
        | none =>
        match parse_bool (trim src) with
        | some (b, rem) => some (some (.bool b), rem)
        | none =>
        match parse_number (trim src) with
        | some (q, rem) => some (some (.number q), rem)
        | none =>
        match parse_string (trim src) with
        | some (v, rem) => some (some (.string v), rem)
        | none =>
        match parse_arrayF fuel (trim src) with
        | some (vs, rem) => some (some (.array vs), rem)
        | none =>
        match parse_objectF fuel (trim src) with
        | some (kvs, rem) => some (some (.object kvs), rem)
        | none => none

/-- `parse_array` of `lib.rs` (fueled): `trim_start`, require `[`, drop it,
`trim_start`, then the element loop. -/
def parse_arrayF : Nat → List Char → Option (List Value × Option (List Char))
  | 0, _ => none
  | fuel + 1, src =>
      if (trimStart src).head? = some '[' then
        arrayLoopF fuel (trimStart ((trimStart src).drop 1)) []
      else none

/-- The `loop` of `parse_array`: close on `]` (trimming after it, empty
mapped to `None`); otherwise one element via `parse` (anything but a value
fails), re-trim via `nextRem`, then `,` (consume and loop) or `]` (loop,
closing at the top) or fail. -/
def arrayLoopF : Nat → List Char → List Value → Option (List Value × Option (List Char))
  | 0, _, _ => none
  | fuel + 1, remaining, elements =>
      if remaining.head? = some ']' then
        some (elements, emptyToNone (trimStart (remaining.drop 1)))
      else
        match parseF fuel remaining with
        | some (some e, next) =>
            if (nextRem next).head? = some ',' then
              arrayLoopF fuel (trimStart ((nextRem next).drop 1)) (elements ++ [e])
            else if (nextRem next).head? = some ']' then
              arrayLoopF fuel (nextRem next) (elements ++ [e])
            else none
        | _ => none

/-- `parse_object` of `lib.rs` (fueled): `trim_start`, require `{`, drop it,
`trim_start`, then the member loop. -/
def parse_objectF : Nat → List Char → Option (List (List Char × Value) × Option (List Char))
  | 0, _ => none
  | fuel + 1, src =>
      if (trimStart src).head? = some '{' then
        objectLoopF fuel (trimStart ((trimStart src).drop 1)) []
      else none

/-- The `loop` of `parse_object`: close on `}`; otherwise a key via
`parse_string` (whose remainder must be nonempty), `:`, a value via `parse`,
`HashMap::insert`, then `,` or `}` exactly as in the array loop. -/
def objectLoopF : Nat → List Char → List (List Char × Value) →
    Option (List (List Char × Value) × Option (List Char))
  | 0, _, _ => none
  | fuel + 1, remaining, map =>
      if remaining.head? = some '}' then
        some (map, emptyToNone (trimStart (remaining.drop 1)))
      else
        match parse_string remaining with
        | some (key, next) =>
            match next with
            | none => none
            | some r =>
                if (trimStart r).head? = some ':' then
                  match parseF fuel (trimStart ((trimStart r).drop 1)) with
                  | some (some v, nextv) =>
                      if (nextRem nextv).head? = some ',' then
                        objectLoopF fuel (trimStart ((nextRem nextv).drop 1)) (insertKV map key v)
                      else if (nextRem nextv).head? = some '}' then
                        objectLoopF fuel (nextRem nextv) (insertKV map key v)
                      else none
                  | _ => none
                else none
        | none => none

end

/-- Fuel supplied by the top-level wrappers: generous for every terminating
run, and a function of the trimmed input only, so that surrounding
whitespace never changes the fuel. -/
def fuelOf (s : List Char) : Nat := 3 * (trim s).length + 3

/-- `parse` of `lib.rs`. -/
def parse (s : List Char) : Option (Option Value × Option (List Char)) :=
  parseF (fuelOf s) s

/-- `parse_array` of `lib.rs`. -/
def parse_array (s : List Char) : Option (List Value × Option (List Char)) :=
  parse_arrayF (fuelOf s) s

/-- `parse_object` of `lib.rs`. -/
def parse_object (s : List Char) : Option (List (List Char × Value) × Option (List Char)) :=
  parse_objectF (fuelOf s) s

/-! ### Generic helper lemmas -/

/-- `t` occurs in `s` as a contiguous segment (so it is a substring of the
input, in the claims' sense). -/
def IsSlice (t s : List Char) : Prop := ∃ a b, s = a ++ t ++ b

theorem slice_refl (s : List Char) : IsSlice s s := ⟨[], [], by simp⟩

theorem slice_trans {t u s : List Char} (h1 : IsSlice t u) (h2 : IsSlice u s) :
    IsSlice t s := by
  obtain ⟨a, b, rfl⟩ := h1
  obtain ⟨c, d, rfl⟩ := h2
  exact ⟨c ++ a, b ++ d, by simp⟩

theorem slice_drop (s : List Char) (n : Nat) : IsSlice (s.drop n) s :=
  ⟨s.take n, [], by simp⟩

theorem slice_dropWhile (p : Char → Bool) (l : List Char) :
    IsSlice (l.dropWhile p) l :=
  ⟨l.takeWhile p, [], by simp [List.takeWhile_append_dropWhile]⟩

theorem slice_trimStart (l : List Char) : IsSlice (trimStart l) l :=
  slice_dropWhile isWs l

theorem slice_trimEnd (l : List Char) : IsSlice (trimEnd l) l := by
  have h : l.reverse = l.reverse.takeWhile isWs ++ l.reverse.dropWhile isWs :=
    (List.takeWhile_append_dropWhile (p := isWs) (l := l.reverse)).symm
  refine ⟨[], (l.reverse.takeWhile isWs).reverse, ?_⟩
  simp only [List.nil_append, trimEnd]
  rw [← List.reverse_append, ← h, List.reverse_reverse]

theorem slice_trim (l : List Char) : IsSlice (trim l) l :=
  slice_trans (slice_trimStart (trimEnd l)) (slice_trimEnd l)

theorem dropWhile_all {p : Char → Bool} :
    ∀ {w : List Char}, (∀ c ∈ w, p c = true) → ∀ l : List Char,
      (w ++ l).dropWhile p = l.dropWhile p
  | [], _, _ => rfl
  | c :: w, h, l => by
      have hc : p c = true := h c (List.mem_cons_self ..)
      simp only [List.cons_append, List.dropWhile_cons, hc, if_true]
      exact dropWhile_all (fun d hd => h d (List.mem_cons_of_mem _ hd)) l

theorem dropWhile_nil_of_all {p : Char → Bool} {w : List Char}
    (h : ∀ c ∈ w, p c = true) : w.dropWhile p = [] := by
  have := dropWhile_all h []
  simpa using this

theorem dropWhile_append_eval {p : Char → Bool} :
    ∀ A B : List Char,
      (A ++ B).dropWhile p = if A.dropWhile p = [] then B.dropWhile p else A.dropWhile p ++ B
  | [], B => by simp
  | c :: A, B => by
      by_cases hc : p c = true
      · simp only [List.cons_append, List.dropWhile_cons, hc, if_true]
        exact dropWhile_append_eval A B
      · simp [List.dropWhile_cons, hc]

theorem headNotWs_dropWhile (l : List Char) :
    ∀ c, (l.dropWhile isWs).head? = some c → isWs c = false := by
  induction l with
  | nil => intro c h; simp at h
  | cons a l ih =>
      intro c h
      by_cases ha : isWs a = true
      · rw [List.dropWhile_cons, if_pos ha] at h
        exact ih c h
      · rw [List.dropWhile_cons, if_neg ha] at h
        simp only [List.head?_cons, Option.some.injEq] at h
        rw [← h]
        exact Bool.not_eq_true _ ▸ ha

/-! ### Trim lemmas -/

theorem trimStart_ws_append {w l : List Char} (hw : ∀ c ∈ w, isWs c = true) :
    trimStart (w ++ l) = trimStart l :=
  dropWhile_all hw l

theorem trimEnd_append_ws {w l : List Char} (hw : ∀ c ∈ w, isWs c = true) :
    trimEnd (l ++ w) = trimEnd l := by
  unfold trimEnd
  rw [List.reverse_append, dropWhile_all (fun c hc => hw c (List.mem_reverse.mp hc))]

theorem trim_append_ws {w l : List Char} (hw : ∀ c ∈ w, isWs c = true) :
    trim (l ++ w) = trim l := by
  unfold trim
  rw [trimEnd_append_ws hw]

theorem trim_ws_append {w l : List Char} (hw : ∀ c ∈ w, isWs c = true) :
    trim (w ++ l) = trim l := by
  unfold trim trimEnd trimStart
  rw [List.reverse_append, dropWhile_append_eval]
  split
  next h0 =>
      rw [h0, dropWhile_nil_of_all (fun c hc => hw c (List.mem_reverse.mp hc))]
  next h0 =>
      rw [List.reverse_append, List.reverse_reverse,
        dropWhile_all hw]

theorem trim_ws_surround {w1 w2 t : List Char}
    (h1 : ∀ c ∈ w1, isWs c = true) (h2 : ∀ c ∈ w2, isWs c = true) :
    trim (w1 ++ t ++ w2) = trim t := by
  rw [List.append_assoc, trim_ws_append h1, trim_append_ws h2]

/-- `parse` only ever looks at its input through `trim`. -/
theorem parseF_congr : ∀ (f : Nat) {s₁ s₂ : List Char}, trim s₁ = trim s₂ →
    parseF f s₁ = parseF f s₂
  | 0, _, _, _ => rfl
  | _ + 1, _, _, h => by
      simp only [parseF]
      rw [h]

/-! ### Remainder shape lemmas -/

theorem emptyToNone_some {l t : List Char} (h : emptyToNone l = some t) :
    t = l ∧ l ≠ [] := by
  by_cases hl : l = []
  · simp [emptyToNone, hl] at h
  · simp only [emptyToNone, if_neg hl, Option.some.injEq] at h
    exact ⟨h.symm, hl⟩

theorem parse_null_rem {s t : List Char} {u : Unit}
    (h : parse_null s = some (u, some t)) : s = "null".toList ++ t ∧ t ≠ [] := by
  unfold parse_null at h
  split at h
  next hp =>
      simp only [Option.some.injEq, Prod.mk.injEq] at h
      obtain ⟨-, h2⟩ := h
      obtain ⟨rfl, hne⟩ := emptyToNone_some h2
      exact ⟨by rw [← hp, List.take_append_drop], hne⟩
  next => exact absurd h (by simp)

theorem parse_bool_rem {s t : List Char} {b : Bool}
    (h : parse_bool s = some (b, some t)) :
    (s = "true".toList ++ t ∨ s = "false".toList ++ t) ∧ t ≠ [] := by
  unfold parse_bool at h
  split at h
  next hp =>
      simp only [Option.some.injEq, Prod.mk.injEq] at h
      obtain ⟨-, h2⟩ := h
      obtain ⟨rfl, hne⟩ := emptyToNone_some h2
      exact ⟨Or.inl (by rw [← hp, List.take_append_drop]), hne⟩
  next =>
      split at h
      next hp =>
          simp only [Option.some.injEq, Prod.mk.injEq] at h
          obtain ⟨-, h2⟩ := h
          obtain ⟨rfl, hne⟩ := emptyToNone_some h2
          exact ⟨Or.inr (by rw [← hp, List.take_append_drop]), hne⟩
      next => exact absurd h (by simp)

theorem numTail_rem {s t : List Char} {p : Nat} {q : ℚ}
    (h : numTail s p = some (q, some t)) : (∃ n, t = s.drop n) ∧ t ≠ [] := by
  unfold numTail at h
  split at h
  · exact absurd h (by simp)
  next pos1 hf =>
      split at h
      · exact absurd h (by simp)
      next pos2 he =>
          split at h
          · simp only [Option.some.injEq, Prod.mk.injEq] at h
            obtain ⟨-, h2⟩ := h
            obtain ⟨rfl, hne⟩ := emptyToNone_some h2
            exact ⟨⟨pos2, rfl⟩, hne⟩
          · exact absurd h (by simp)

theorem numIntPart_rem {s t : List Char} {q : ℚ} {pos0 : Nat}
    (h : numIntPart s pos0 = some (q, some t)) : (∃ n, t = s.drop n) ∧ t ≠ [] := by
  unfold numIntPart at h
  split at h
  · split at h
    · exact absurd h (by simp)
    · exact numTail_rem h
  · split at h
    · exact numTail_rem h
    · exact absurd h (by simp)
  · exact absurd h (by simp)

theorem parse_number_rem {s t : List Char} {q : ℚ}
    (h : parse_number s = some (q, some t)) : (∃ n, t = s.drop n) ∧ t ≠ [] := by
  unfold parse_number at h
  exact numIntPart_rem h

theorem stringLoop_rem {s : List Char} :
    ∀ (k pos : Nat) (esc : Bool) {v t : List Char},
      stringLoop s k pos esc = some (v, some t) → (∃ n, t = s.drop n) ∧ t ≠ []
  | 0, _, _, _, _, h => by simp [stringLoop] at h
  | k + 1, pos, esc, v, t, h => by
      simp only [stringLoop] at h
      split at h
      · split at h
        · split at h
          · split at h
            · exact absurd h (by simp)
            · exact stringLoop_rem k (pos + 4) false h
          · exact stringLoop_rem k (pos + 1) false h
        · split at h
          · exact stringLoop_rem k (pos + 1) true h
          · split at h
            · exact absurd h (by simp)
            · simp only [Option.some.injEq, Prod.mk.injEq] at h
              obtain ⟨-, h2⟩ := h
              obtain ⟨rfl, hne⟩ := emptyToNone_some h2
              exact ⟨⟨pos + 1, rfl⟩, hne⟩
          · split at h
            · exact absurd h (by simp)
            · exact stringLoop_rem k (pos + 1) false h
      · exact absurd h (by simp)

theorem parse_string_rem {s t v : List Char}
    (h : parse_string s = some (v, some t)) : (∃ n, t = s.drop n) ∧ t ≠ [] := by
  unfold parse_string at h
  split at h
  · exact stringLoop_rem _ _ _ h
  · exact absurd h (by simp)

theorem headNotWs_trimStart (l : List Char) :
    ∀ c, (trimStart l).head? = some c → isWs c = false :=
  headNotWs_dropWhile l

/-! ### Raw-suffix extension lemmas

A recognizer hands back the raw unconsumed suffix exactly when gluing extra
text after a completely-consumed token returns that text verbatim.  The
lemmas below prove this for the number scanner (for a whitespace-led tail,
which no number grammar element can absorb) and for the string scanner (for
any tail, since a string is delimited by its closing quote). -/

theorem takeWhile_append_notHead {p : Char → Bool} {b : List Char}
    (hb : ∀ c, b.head? = some c → p c = false) :
    ∀ a : List Char, (a ++ b).takeWhile p = a.takeWhile p
  | [] => by
      cases b with
      | nil => rfl
      | cons c b' => simp [List.takeWhile_cons, hb c rfl]
  | x :: a => by
      by_cases hx : p x = true
      · simp only [List.cons_append, List.takeWhile_cons, hx, if_true]
        rw [takeWhile_append_notHead hb a]
      · simp [List.takeWhile_cons, hx]

theorem lengthTakeWhile_le (p : Char → Bool) (l : List Char) :
    (l.takeWhile p).length ≤ l.length :=
  (List.takeWhile_prefix p).length_le

theorem get?_append_boundary (a b : List Char) :
    (a ++ b).get? a.length = b.head? := by
  cases b with
  | nil => simp [List.get?_eq_none.mpr]
  | cons c b' =>
      rw [List.get?_eq_getElem?, List.getElem?_append_right (Nat.le_refl _), Nat.sub_self]
      simp

/-- A whitespace character can extend no part of the number grammar. -/
theorem isWs_nonNum {c : Char} (h : isWs c = true) :
    Char.isDigit c = false ∧ c ≠ '.' ∧ c ≠ 'e' ∧ c ≠ 'E' ∧ c ≠ '+' ∧ c ≠ '-' := by
  revert h
  simp only [isWs, Bool.or_eq_true, decide_eq_true_eq]
  rintro (((((rfl | rfl) | rfl) | rfl) | rfl) | rfl) <;>
    exact ⟨by decide, by decide, by decide, by decide, by decide, by decide⟩

/-- Looking for a specific non-whitespace character at a position up to the
token's length is unaffected by appending a whitespace-led tail. -/
theorem get?_ext_iff {tok rest : List Char} {pos : Nat} {ch : Char}
    (hws : ∀ c, rest.head? = some c → isWs c = true)
    (hch : isWs ch = false) (hp : pos ≤ tok.length) :
    (tok ++ rest).get? pos = some ch ↔ tok.get? pos = some ch := by
  rcases Nat.lt_or_ge pos tok.length with hl | hl
  · rw [List.get?_append hl]
  · have hpe : pos = tok.length := Nat.le_antisymm hp hl
    subst hpe
    rw [get?_append_boundary, List.get?_eq_none.mpr (Nat.le_refl _)]
    refine iff_of_false ?_ ?_
    · intro hcon
      have h1 := hws ch hcon
      rw [hch] at h1
      cases h1
    · intro hcon
      cases hcon

theorem isDigitAt_ext {tok rest : List Char} {pos : Nat}
    (hws : ∀ c, rest.head? = some c → isWs c = true) (hp : pos ≤ tok.length) :
    isDigitAt (tok ++ rest) pos = isDigitAt tok pos := by
  unfold isDigitAt
  rcases Nat.lt_or_ge pos tok.length with hl | hl
  · rw [List.get?_append hl]
  · have hpe : pos = tok.length := Nat.le_antisymm hp hl
    subst hpe
    rw [get?_append_boundary, List.get?_eq_none.mpr (Nat.le_refl _)]
    cases hr : rest.head? with
    | none => rfl
    | some c => simp [(isWs_nonNum (hws c hr)).1]

theorem digitRun_ext {tok rest : List Char} {pos : Nat}
    (hws : ∀ c, rest.head? = some c → isWs c = true) (hp : pos ≤ tok.length) :
    ((tok ++ rest).drop pos).takeWhile Char.isDigit
      = (tok.drop pos).takeWhile Char.isDigit := by
  rw [List.drop_append_of_le_length hp]
  exact takeWhile_append_notHead (fun c hc => (isWs_nonNum (hws c hc)).1) _

theorem fracEnd_ext {tok rest : List Char} {pos p1 : Nat}
    (hws : ∀ c, rest.head? = some c → isWs c = true)
    (hp : pos ≤ tok.length) (h : fracEnd tok pos = some p1) :
    p1 ≤ tok.length ∧ fracEnd (tok ++ rest) pos = some p1 := by
  unfold fracEnd at h ⊢
  by_cases hdot : tok.get? pos = some '.'
  · have hlt : pos < tok.length := by
      by_contra hcon
      rw [List.get?_eq_none.mpr (Nat.le_of_not_lt hcon)] at hdot
      cases hdot
    rw [if_pos hdot] at h
    rw [if_pos ((get?_ext_iff hws (by decide) hp).mpr hdot)]
    simp only [] at h ⊢
    rw [digitRun_ext hws (by omega)]
    by_cases hd : ((tok.drop (pos + 1)).takeWhile Char.isDigit).length = 0
    · rw [if_pos hd] at h; cases h
    · rw [if_neg hd] at h
      rw [if_neg hd]
      have hinj := Option.some.inj h
      have hlen := lengthTakeWhile_le Char.isDigit (tok.drop (pos + 1))
      rw [List.length_drop] at hlen
      exact ⟨by omega, h⟩
  · rw [if_neg hdot] at h
    rw [if_neg (fun hcon => hdot ((get?_ext_iff hws (by decide) hp).mp hcon))]
    have hinj := Option.some.inj h
    exact ⟨hinj ▸ hp, h⟩

theorem expEnd_ext {tok rest : List Char} {pos p1 : Nat}
    (hws : ∀ c, rest.head? = some c → isWs c = true)
    (hp : pos ≤ tok.length) (h : expEnd tok pos = some p1) :
    p1 ≤ tok.length ∧ expEnd (tok ++ rest) pos = some p1 := by
  unfold expEnd at h ⊢
  by_cases he : tok.get? pos = some 'e' ∨ tok.get? pos = some 'E'
  · have hlt : pos < tok.length := by
      by_contra hcon
      rcases he with he | he <;>
        (rw [List.get?_eq_none.mpr (Nat.le_of_not_lt hcon)] at he; cases he)
    have he' : (tok ++ rest).get? pos = some 'e' ∨ (tok ++ rest).get? pos = some 'E' := by
      rw [List.get?_append hlt]
      exact he
    rw [if_pos he] at h
    rw [if_pos he']
    simp only [] at h ⊢
    by_cases hs : tok.get? (pos + 1) = some '+' ∨ tok.get? (pos + 1) = some '-'
    · have hlt2 : pos + 1 < tok.length := by
        by_contra hcon
        rcases hs with hc | hc <;>
          (rw [List.get?_eq_none.mpr (Nat.le_of_not_lt hcon)] at hc; cases hc)
      have hs' : (tok ++ rest).get? (pos + 1) = some '+' ∨
          (tok ++ rest).get? (pos + 1) = some '-' := by
        rw [List.get?_append hlt2]
        exact hs
      rw [if_pos hs] at h
      rw [if_pos hs']
      rw [digitRun_ext hws (by omega)]
      by_cases hd : ((tok.drop (pos + 2)).takeWhile Char.isDigit).length = 0
      · rw [if_pos hd] at h; cases h
      · rw [if_neg hd] at h
        rw [if_neg hd]
        have hinj := Option.some.inj h
        have hlen := lengthTakeWhile_le Char.isDigit (tok.drop (pos + 2))
        rw [List.length_drop] at hlen
        exact ⟨by omega, h⟩
    · have hs' : ¬((tok ++ rest).get? (pos + 1) = some '+' ∨
          (tok ++ rest).get? (pos + 1) = some '-') := by
        rintro (hc | hc)
        · exact hs (Or.inl ((get?_ext_iff hws (by decide) (by omega)).mp hc))
        · exact hs (Or.inr ((get?_ext_iff hws (by decide) (by omega)).mp hc))
      rw [if_neg hs] at h
      rw [if_neg hs']
      rw [digitRun_ext hws (by omega)]
      by_cases hd : ((tok.drop (pos + 1)).takeWhile Char.isDigit).length = 0
      · rw [if_pos hd] at h; cases h
      · rw [if_neg hd] at h
        rw [if_neg hd]
        have hinj := Option.some.inj h
        have hlen := lengthTakeWhile_le Char.isDigit (tok.drop (pos + 1))
        rw [List.length_drop] at hlen
        exact ⟨by omega, h⟩
  · rw [if_neg he] at h
    have he' : ¬((tok ++ rest).get? pos = some 'e' ∨ (tok ++ rest).get? pos = some 'E') := by
      rintro (hc | hc)
      · exact he (Or.inl ((get?_ext_iff hws (by decide) hp).mp hc))
      · exact he (Or.inr ((get?_ext_iff hws (by decide) hp).mp hc))
    rw [if_neg he']
    have hinj := Option.some.inj h
    exact ⟨hinj ▸ hp, h⟩

theorem numTail_ext {tok rest : List Char} {pos : Nat} {q : ℚ}
    (hws : ∀ c, rest.head? = some c → isWs c = true)
    (hp : pos ≤ tok.length) (h : numTail tok pos = some (q, none)) :
    numTail (tok ++ rest) pos = some (q, emptyToNone rest) := by
  unfold numTail at h ⊢
  split at h
  · cases h
  next pos1 hf =>
      obtain ⟨hb1, hf'⟩ := fracEnd_ext hws hp hf
      simp only [hf']
      split at h
      · cases h
      next pos2 hex =>
          obtain ⟨hb2, hex'⟩ := expEnd_ext hws hb1 hex
          simp only [hex']
          by_cases hg : tok ≠ [] ∧ 0 < pos2
          · rw [if_pos hg] at h
            simp only [Option.some.injEq, Prod.mk.injEq] at h
            obtain ⟨hq, hrem⟩ := h
            have hdrop : tok.drop pos2 = [] := by
              by_contra hne
              simp [emptyToNone, hne] at hrem
            have hlen0 := congrArg List.length hdrop
            rw [List.length_drop, List.length_nil] at hlen0
            have hpe : pos2 = tok.length := by omega
            rw [if_pos ⟨by simp [hg.1], hg.2⟩, hpe, List.take_left, List.drop_left]
            rw [hpe, List.take_length] at hq
            rw [hq]
          · rw [if_neg hg] at h; cases h

/-- The three arms of the integer-part `match`, with the catch-all arm's
implicit `≠ '0'` side condition made explicit. -/
theorem numIntPart_cases (src : List Char) (pos0 : Nat) :
    (src.get? pos0 = some '0' ∧
      numIntPart src pos0
        = (if isDigitAt src (pos0 + 1) = true then none else numTail src (pos0 + 1))) ∨
    (∃ c, src.get? pos0 = some c ∧ (c = '0' → False) ∧
      numIntPart src pos0
        = (if c.isDigit = true then
            numTail src (pos0 + 1 + ((src.drop (pos0 + 1)).takeWhile Char.isDigit).length)
          else none)) ∨
    (src.get? pos0 = none ∧ numIntPart src pos0 = none) := by
  unfold numIntPart
  split
  next heq => exact Or.inl ⟨heq, rfl⟩
  next c hne heq => exact Or.inr (Or.inl ⟨c, heq, hne, rfl⟩)
  next heq => exact Or.inr (Or.inr ⟨heq, rfl⟩)

theorem numIntPart_ext {tok rest : List Char} {pos0 : Nat} {q : ℚ}
    (hws : ∀ c, rest.head? = some c → isWs c = true)
    (h : numIntPart tok pos0 = some (q, none)) :
    numIntPart (tok ++ rest) pos0 = some (q, emptyToNone rest) := by
  rcases numIntPart_cases tok pos0 with ⟨hg, he⟩ | ⟨c, hg, hc0, he⟩ | ⟨hg, he⟩
  · rw [he] at h
    have hlt : pos0 < tok.length := by
      by_contra hcon
      rw [List.get?_eq_none.mpr (Nat.le_of_not_lt hcon)] at hg
      cases hg
    have hg' : (tok ++ rest).get? pos0 = some '0' := by
      rw [List.get?_append hlt]
      exact hg
    rcases numIntPart_cases (tok ++ rest) pos0 with ⟨hg2, he2⟩ | ⟨c2, hg2, hc2, he2⟩ |
        ⟨hg2, he2⟩
    · rw [he2, isDigitAt_ext hws (by omega)]
      by_cases hd : isDigitAt tok (pos0 + 1) = true
      · rw [if_pos hd] at h; cases h
      · rw [if_neg hd] at h
        rw [if_neg hd]
        exact numTail_ext hws (by omega) h
    · rw [hg'] at hg2
      exact absurd (Option.some.inj hg2).symm hc2
    · rw [hg'] at hg2; cases hg2
  · rw [he] at h
    by_cases hcd : c.isDigit = true
    · rw [if_pos hcd] at h
      have hlt : pos0 < tok.length := by
        by_contra hcon
        rw [List.get?_eq_none.mpr (Nat.le_of_not_lt hcon)] at hg
        cases hg
      have hg' : (tok ++ rest).get? pos0 = some c := by
        rw [List.get?_append hlt]
        exact hg
      rcases numIntPart_cases (tok ++ rest) pos0 with ⟨hg2, he2⟩ | ⟨c2, hg2, hc2, he2⟩ |
          ⟨hg2, he2⟩
      · rw [hg'] at hg2
        exact absurd (Option.some.inj hg2) hc0
      · rw [hg'] at hg2
        have hcc : c2 = c := (Option.some.inj hg2).symm
        subst hcc
        rw [he2, if_pos hcd, digitRun_ext hws (by omega)]
        have hcount := lengthTakeWhile_le Char.isDigit (tok.drop (pos0 + 1))
        rw [List.length_drop] at hcount
        exact numTail_ext hws (by omega) h
      · rw [hg'] at hg2; cases hg2
    · rw [if_neg hcd] at h; cases h
  · rw [he] at h; cases h

/-- The number recognizer returns the raw tail: gluing a whitespace-led
`rest` after a completely-consumed numeric token yields exactly `rest` as
remainder (whitespace still present), with the same value. -/
theorem parse_number_ext {tok rest : List Char} {q : ℚ}
    (hws : ∀ c, rest.head? = some c → isWs c = true)
    (h : parse_number tok = some (q, none)) :
    parse_number (tok ++ rest) = some (q, emptyToNone rest) := by
  unfold parse_number at h ⊢
  have hne : tok ≠ [] := by
    intro hn
    subst hn
    simp [numIntPart] at h
  have h0 : (tok ++ rest).get? 0 = tok.get? 0 := by
    refine List.get?_append ?_
    cases tok with
    | nil => exact absurd rfl hne
    | cons _ _ => simp
  rw [h0]
  by_cases hm : tok.get? 0 = some '-'
  · rw [if_pos hm] at h ⊢
    exact numIntPart_ext hws h
  · rw [if_neg hm] at h ⊢
    exact numIntPart_ext hws h

theorem get_append_left' {a b : List Char} {pos : Nat} (h : pos < a.length)
    (h2 : pos < (a ++ b).length) : (a ++ b).get ⟨pos, h2⟩ = a.get ⟨pos, h⟩ := by
  simp only [List.get_eq_getElem]
  exact List.getElem_append_left h

/-- One unfolding of the scan step in the escaped state, in bounds. -/
theorem stringLoop_step_esc (src : List Char) (k pos : Nat) (hlt : pos < src.length) :
    stringLoop src (k + 1) pos true
      = (if src.get ⟨pos, hlt⟩ = 'u' then
          (if src.length ≤ pos + 4 then none else stringLoop src k (pos + 4) false)
        else stringLoop src k (pos + 1) false) := by
  simp only [stringLoop]
  rw [dif_pos hlt]
  exact if_pos trivial

/-- One unfolding of the scan step in the unescaped state, in bounds. -/
theorem stringLoop_step (src : List Char) (k pos : Nat) (hlt : pos < src.length) :
    stringLoop src (k + 1) pos false
      = (match src.get ⟨pos, hlt⟩ with
        | '\\' => stringLoop src k (pos + 1) true
        | '\"' => some ((src.take pos).drop 1,
            if src.length < pos + 1 then none else emptyToNone (src.drop (pos + 1)))
        | c => if c.toNat < 0x20 then none else stringLoop src k (pos + 1) false) := by
  simp only [stringLoop]
  rw [dif_pos hlt]
  exact if_neg (by simp)

/-- The string scanner returns the raw tail: gluing any `rest` after a
completely-consumed string token yields exactly `rest` as remainder, with
the same span. -/
theorem stringLoop_ext {tok rest : List Char} :
    ∀ (k k' pos : Nat) (esc : Bool) {v : List Char}, k ≤ k' →
      stringLoop tok k pos esc = some (v, none) →
      stringLoop (tok ++ rest) k' pos esc = some (v, emptyToNone rest)
  | 0, _, _, _, _, _, h => by simp [stringLoop] at h
  | k + 1, k', pos, esc, v, hk, h => by
      obtain ⟨k'', rfl⟩ : ∃ m, k' = m + 1 := ⟨k' - 1, by omega⟩
      have hk2 : k ≤ k'' := by omega
      simp only [stringLoop] at h
      split at h
      next hlt =>
          have hlt2 : pos < (tok ++ rest).length := by
            rw [List.length_append]
            omega
          cases esc with
          | true =>
              rw [stringLoop_step_esc (tok ++ rest) k'' pos hlt2, get_append_left' hlt hlt2]
              have h2 : (if tok.get ⟨pos, hlt⟩ = 'u' then
                  (if tok.length ≤ pos + 4 then none else stringLoop tok k (pos + 4) false)
                else stringLoop tok k (pos + 1) false) = some (v, none) := h
              by_cases hu : tok.get ⟨pos, hlt⟩ = 'u'
              · rw [if_pos hu] at h2
                rw [if_pos hu]
                by_cases hb : tok.length ≤ pos + 4
                · rw [if_pos hb] at h2; cases h2
                · rw [if_neg hb] at h2
                  rw [if_neg (by rw [List.length_append]; omega)]
                  exact stringLoop_ext k k'' (pos + 4) false hk2 h2
              · rw [if_neg hu] at h2
                rw [if_neg hu]
                exact stringLoop_ext k k'' (pos + 1) false hk2 h2
          | false =>
              rw [stringLoop_step (tok ++ rest) k'' pos hlt2, get_append_left' hlt hlt2]
              have h2 : (match tok.get ⟨pos, hlt⟩ with
                | '\\' => stringLoop tok k (pos + 1) true
                | '\"' => some ((tok.take pos).drop 1,
                    if tok.length < pos + 1 then none else emptyToNone (tok.drop (pos + 1)))
                | c => if c.toNat < 0x20 then none
                    else stringLoop tok k (pos + 1) false) = some (v, none) := h
              split at h2
              next heq =>
                  exact stringLoop_ext k k'' (pos + 1) true hk2 h2
              next heq =>
                  rw [if_neg (by omega : ¬tok.length < pos + 1)] at h2
                  simp only [Option.some.injEq, Prod.mk.injEq] at h2
                  obtain ⟨hv, hrem⟩ := h2
                  have hdrop : tok.drop (pos + 1) = [] := by
                    by_contra hne
                    simp [emptyToNone, hne] at hrem
                  have hlen0 := congrArg List.length hdrop
                  rw [List.length_drop, List.length_nil] at hlen0
                  rw [List.take_append_of_le_length (by omega),
                    if_neg (by rw [List.length_append]; omega),
                    show pos + 1 = tok.length by omega, List.drop_left, hv]
              next c hne1 hne2 =>
                  by_cases hctl : (tok.get ⟨pos, hlt⟩).toNat < 0x20
                  · rw [if_pos hctl] at h2; cases h2
                  · rw [if_neg hctl] at h2
                    rw [if_neg hctl]
                    exact stringLoop_ext k k'' (pos + 1) false hk2 h2
      next => exact absurd h (by simp)

theorem parse_string_ext {tok rest v : List Char}
    (h : parse_string tok = some (v, none)) :
    parse_string (tok ++ rest) = some (v, emptyToNone rest) := by
  unfold parse_string at h ⊢
  by_cases hq : tok.get? 0 = some '\"'
  · rw [if_pos hq] at h
    have hlen : 0 < tok.length := by
      by_contra hcon
      rw [List.get?_eq_none.mpr (by omega)] at hq
      cases hq
    have h0 : (tok ++ rest).get? 0 = some '\"' := by
      rw [List.get?_append hlen]
      exact hq
    rw [if_pos h0]
    exact stringLoop_ext (tok.length + 1) ((tok ++ rest).length + 1) 1 false
      (by rw [List.length_append]; omega) h
  · rw [if_neg hq] at h
    cases h

/-! ### The remainder invariant, by mutual induction on fuel -/

mutual

theorem parseF_rem : ∀ (fuel : Nat) (s : List Char) (r : Option Value) (t : List Char),
    parseF fuel s = some (r, some t) → t ≠ [] ∧ IsSlice t s
  | 0, s, r, t, h => by simp [parseF] at h
  | fuel + 1, s, r, t, h => by
      simp only [parseF] at h
      split at h
      next => exact absurd h (by simp)
      next hne =>
        split at h
        next x rem heq =>
            simp only [Option.some.injEq, Prod.mk.injEq] at h
            obtain ⟨-, rfl⟩ := h
            obtain ⟨hs, hne'⟩ := parse_null_rem heq
            exact ⟨hne', slice_trans ⟨"null".toList, [], by simp [hs]⟩ (slice_trim s)⟩
        next =>
        split at h
        next b rem heq =>
            simp only [Option.some.injEq, Prod.mk.injEq] at h
            obtain ⟨-, rfl⟩ := h
            obtain ⟨hs, hne'⟩ := parse_bool_rem heq
            refine ⟨hne', slice_trans ?_ (slice_trim s)⟩
            rcases hs with hs | hs
            · exact ⟨"true".toList, [], by simp [hs]⟩
            · exact ⟨"false".toList, [], by simp [hs]⟩
        next =>
        split at h
        next q rem heq =>
            simp only [Option.some.injEq, Prod.mk.injEq] at h
            obtain ⟨-, rfl⟩ := h
            obtain ⟨⟨n, rfl⟩, hne'⟩ := parse_number_rem heq
            exact ⟨hne', slice_trans (slice_drop _ n) (slice_trim s)⟩
        next =>
        split at h
        next v rem heq =>
            simp only [Option.some.injEq, Prod.mk.injEq] at h
            obtain ⟨-, rfl⟩ := h
            obtain ⟨⟨n, rfl⟩, hne'⟩ := parse_string_rem heq
            exact ⟨hne', slice_trans (slice_drop _ n) (slice_trim s)⟩
        next =>
        split at h
        next vs rem heq =>
            simp only [Option.some.injEq, Prod.mk.injEq] at h
            obtain ⟨-, rfl⟩ := h
            obtain ⟨hne', hsl, -⟩ := parse_arrayF_rem fuel (trim s) vs t heq
            exact ⟨hne', slice_trans hsl (slice_trim s)⟩
        next =>
        split at h
        next kvs rem heq =>
            simp only [Option.some.injEq, Prod.mk.injEq] at h
            obtain ⟨-, rfl⟩ := h
            obtain ⟨hne', hsl, -⟩ := parse_objectF_rem fuel (trim s) kvs t heq
            exact ⟨hne', slice_trans hsl (slice_trim s)⟩
        next => exact absurd h (by simp)

theorem parse_arrayF_rem : ∀ (fuel : Nat) (s : List Char) (vs : List Value) (t : List Char),
    parse_arrayF fuel s = some (vs, some t) →
      t ≠ [] ∧ IsSlice t s ∧ ∀ c, t.head? = some c → isWs c = false
  | 0, s, vs, t, h => by simp [parse_arrayF] at h
  | fuel + 1, s, vs, t, h => by
      simp only [parse_arrayF] at h
      split at h
      next =>
          obtain ⟨hne', hsl, hws⟩ := arrayLoopF_rem fuel _ _ vs t h
          refine ⟨hne', slice_trans hsl ?_, hws⟩
          exact slice_trans (slice_trimStart _)
            (slice_trans (slice_drop _ 1) (slice_trimStart s))
      next => exact absurd h (by simp)

theorem arrayLoopF_rem : ∀ (fuel : Nat) (rem : List Char) (el vs : List Value) (t : List Char),
    arrayLoopF fuel rem el = some (vs, some t) →
      t ≠ [] ∧ IsSlice t rem ∧ ∀ c, t.head? = some c → isWs c = false
  | 0, rem, el, vs, t, h => by simp [arrayLoopF] at h
  | fuel + 1, rem, el, vs, t, h => by
      simp only [arrayLoopF] at h
      split at h
      next =>
          simp only [Option.some.injEq, Prod.mk.injEq] at h
          obtain ⟨-, h2⟩ := h
          obtain ⟨rfl, hne⟩ := emptyToNone_some h2
          exact ⟨hne, slice_trans (slice_trimStart _) (slice_drop rem 1),
            headNotWs_trimStart _⟩
      next =>
          split at h
          next e nxt heq =>
              have hsl2 : IsSlice (nextRem nxt) rem := by
                cases nxt with
                | none => exact ⟨[], rem, by simp [nextRem]⟩
                | some r =>
                    exact slice_trans (slice_trimStart r)
                      (parseF_rem fuel rem (some e) r heq).2
              split at h
              next =>
                  obtain ⟨hne', hsl, hws⟩ := arrayLoopF_rem fuel _ _ vs t h
                  refine ⟨hne', slice_trans hsl ?_, hws⟩
                  exact slice_trans (slice_trimStart _)
                    (slice_trans (slice_drop _ 1) hsl2)
              next =>
              split at h
              next =>
                  obtain ⟨hne', hsl, hws⟩ := arrayLoopF_rem fuel _ _ vs t h
                  exact ⟨hne', slice_trans hsl hsl2, hws⟩
              next => exact absurd h (by simp)
          next => exact absurd h (by simp)

theorem parse_objectF_rem : ∀ (fuel : Nat) (s : List Char) (kvs : List (List Char × Value)) (t : List Char),
    parse_objectF fuel s = some (kvs, some t) →
      t ≠ [] ∧ IsSlice t s ∧ ∀ c, t.head? = some c → isWs c = false
  | 0, s, kvs, t, h => by simp [parse_objectF] at h
  | fuel + 1, s, kvs, t, h => by
      simp only [parse_objectF] at h
      split at h
      next =>
          obtain ⟨hne', hsl, hws⟩ := objectLoopF_rem fuel _ _ kvs t h
          refine ⟨hne', slice_trans hsl ?_, hws⟩
          exact slice_trans (slice_trimStart _)
            (slice_trans (slice_drop _ 1) (slice_trimStart s))
      next => exact absurd h (by simp)

theorem objectLoopF_rem : ∀ (fuel : Nat) (rem : List Char)
    (mp kvs : List (List Char × Value)) (t : List Char),
    objectLoopF fuel rem mp = some (kvs, some t) →
      t ≠ [] ∧ IsSlice t rem ∧ ∀ c, t.head? = some c → isWs c = false
  | 0, rem, mp, kvs, t, h => by simp [objectLoopF] at h
  | fuel + 1, rem, mp, kvs, t, h => by
      simp only [objectLoopF] at h
      split at h
      next =>
          simp only [Option.some.injEq, Prod.mk.injEq] at h
          obtain ⟨-, h2⟩ := h
          obtain ⟨rfl, hne⟩ := emptyToNone_some h2
          exact ⟨hne, slice_trans (slice_trimStart _) (slice_drop rem 1),
            headNotWs_trimStart _⟩
      next =>
          split at h
          next key nxt heq =>
              split at h
              next => exact absurd h (by simp)
              next r =>
                  obtain ⟨⟨n, hn⟩, hner⟩ := parse_string_rem heq
                  have hslr : IsSlice r rem := hn ▸ slice_drop rem n
                  split at h
                  next =>
                      split at h
                      next v nxtv heqv =>
                          have hsl2 : IsSlice (nextRem nxtv) rem := by
                            cases nxtv with
                            | none => exact ⟨[], rem, by simp [nextRem]⟩
                            | some rv =>
                                refine slice_trans (slice_trimStart rv) ?_
                                refine slice_trans (parseF_rem fuel _ (some v) rv heqv).2 ?_
                                exact slice_trans (slice_trimStart _)
                                  (slice_trans (slice_drop _ 1)
                                    (slice_trans (slice_trimStart r) hslr))
                          split at h
                          next =>
                              obtain ⟨hne', hsl, hws⟩ := objectLoopF_rem fuel _ _ kvs t h
                              refine ⟨hne', slice_trans hsl ?_, hws⟩
                              exact slice_trans (slice_trimStart _)
                                (slice_trans (slice_drop _ 1) hsl2)
                          next =>
                          split at h
                          next =>
                              obtain ⟨hne', hsl, hws⟩ := objectLoopF_rem fuel _ _ kvs t h
                              exact ⟨hne', slice_trans hsl hsl2, hws⟩
                          next => exact absurd h (by simp)
                      next => exact absurd h (by simp)
                  next => exact absurd h (by simp)
          next => exact absurd h (by simp)

end

/-- `parse` fails outright (with an explicit `None`) when the trimmed input
is nonempty and no recognizer matches: the fuel plays no role, because the
array and object recognizers are assumed to fail at every fuel. -/
theorem parseF_none (f : Nat) (s : List Char) (hne : trim s ≠ [])
    (h1 : parse_null (trim s) = none) (h2 : parse_bool (trim s) = none)
    (h3 : parse_number (trim s) = none) (h4 : parse_string (trim s) = none)
    (h5 : ∀ g, parse_arrayF g (trim s) = none)
    (h6 : ∀ g, parse_objectF g (trim s) = none) :
    parseF f s = none := by
  cases f with
  | zero => rfl
  | succ f => simp only [parseF, if_neg hne, h1, h2, h3, h4, h5, h6]

/-- `HashMap::insert` as modelled by `insertKV`: inserting twice under the
same key keeps only the second value. -/
theorem insertKV_overwrite :
    ∀ (m : List (List Char × Value)) (k : List Char) (v1 v2 : Value),
      insertKV (insertKV m k v1) k v2 = insertKV m k v2
  | [], k, v1, v2 => by simp [insertKV]
  | (k', v') :: rest, k, v1, v2 => by
      by_cases hk : k' = k
      · simp [insertKV, hk]
      · simp [insertKV, hk, insertKV_overwrite rest k v1 v2]

/-! ### The claims -/

/-- C1 (counterexample): the claim says `parse "[1,2,]"` fails, but it
succeeds — after the trailing comma the loop first re-checks for `]` and
closes, yielding the array `[1, 2]` with no remainder. -/
theorem C1_counterexample :
    parse ("[1,2,]".toList) = some (some (Value.array [Value.number 1, Value.number 2]), none) ∧
    parse ("[1,2,]".toList) ≠ none :=
  have he : parse ("[1,2,]".toList)
      = some (some (Value.array [Value.number 1, Value.number 2]), none) := rfl
  ⟨he, fun h => Option.noConfusion (he.symm.trans h)⟩

/-- C1 (amended): trailing separators are ACCEPTED in composites: a comma
immediately followed by the closing bracket/brace ends the composite,
because the loop checks for the closing delimiter at its top, after the
comma has been consumed.  `"[1,2,]"` parses as `[1, 2]` and `"\x7b\"a\":1,\x7d"`
as `{"a": 1}`; in general, once the loop head sees the closing delimiter it
closes with the elements collected so far. -/
theorem C1_trailing_separator_accepted :
    parse ("[1,2,]".toList) = some (some (Value.array [Value.number 1, Value.number 2]), none) ∧
    parse ("\x7b\"a\":1,\x7d".toList) = some (some (Value.object [("a".toList, Value.number 1)]), none) ∧
    (∀ (f : Nat) (el : List Value) (rest : List Char),
      arrayLoopF (f + 1) (']' :: rest) el = some (el, emptyToNone (trimStart rest))) ∧
    (∀ (f : Nat) (mp : List (List Char × Value)) (rest : List Char),
      objectLoopF (f + 1) ('}' :: rest) mp = some (mp, emptyToNone (trimStart rest))) :=
  ⟨rfl, rfl, fun _ _ _ => rfl, fun _ _ _ => rfl⟩

/-- C2 (counterexample): the claim says `parse (w1 ++ t ++ w2)` returns the
remainder `w2` untrimmed when `w2` is nonempty whitespace; but for
`t = "null"`, `w1 = ""`, `w2 = " "` the dispatcher trims the trailing blank
away and returns no remainder at all. -/
theorem C2_counterexample :
    parse ("null ".toList) = some (some Value.null, none) ∧
    parse ("null ".toList) ≠ some (some Value.null, some (" ".toList)) :=
  have he : parse ("null ".toList) = some (some Value.null, none) := rfl
  ⟨he, fun h => by
    rw [he] at h
    simp at h⟩

/-- C2 (amended): for every token `t` that parses completely to a value `v`
and all whitespace strings `w1`, `w2`, `parse (w1 ++ t ++ w2)` returns
exactly `v` — but with NO remainder: the dispatcher trims trailing
whitespace too, so `w2` is consumed rather than handed back.  (In fact
surrounding whitespace never changes the result of `parse` at all.) -/
theorem C2_scalar_whitespace_roundtrip (t w1 w2 : List Char) (v : Value)
    (h1 : ∀ c ∈ w1, isWs c = true) (h2 : ∀ c ∈ w2, isWs c = true) :
    parse (w1 ++ t ++ w2) = parse t ∧
    (parse t = some (some v, none) → parse (w1 ++ t ++ w2) = some (some v, none)) := by
  have ht : trim (w1 ++ t ++ w2) = trim t := trim_ws_surround h1 h2
  have hf : fuelOf (w1 ++ t ++ w2) = fuelOf t := by unfold fuelOf; rw [ht]
  have hp : parse (w1 ++ t ++ w2) = parse t := by
    unfold parse; rw [hf]; exact parseF_congr _ ht
  exact ⟨hp, fun hv => hp.trans hv⟩

/-- C2 witness: the amended statement applied at `w1 = "  "`, `t = "null"`,
`w2 = " "`. -/
theorem C2_scalar_whitespace_roundtrip_witness :
    parse ("  ".toList ++ "null".toList ++ " ".toList) = some (some Value.null, none) :=
  (C2_scalar_whitespace_roundtrip ("null".toList) "  ".toList (" ".toList) Value.null
    (by decide) (by decide)).2 rfl

/-- C3 (counterexample): the claim says a matching recognizer always hands
back the raw suffix with any leading whitespace still present; but on
`"[] x"` the array recognizer trims after the closing bracket and returns
`"x"`, not the raw suffix `" x"`. -/
theorem C3_counterexample :
    parse ("[] x".toList) = some (some (Value.array []), some ("x".toList)) ∧
    "x".toList ≠ " x".toList :=
  ⟨rfl, by decide⟩

/-- C3 (amended): the four scalar recognizers do return the raw unconsumed
suffix — for `null`/`bool` the input is literally the literal followed by
the tail; for `number`/`string` the tail is a `drop` of the input at the
exact end of the matched token, pinned down by the extension conjuncts:
gluing a tail after a completely-consumed token hands that tail back
verbatim, leading whitespace included (any tail for strings, any
whitespace-led tail for numbers — so the tail is raw, never pre-trimmed).
The array and object recognizers, in contrast, `trim_start` the text after
the closing bracket/brace before returning it, so their remainders never
start with whitespace. -/
theorem C3_remainder_raw_scalars_trimmed_composites :
    (∀ (s t : List Char) (u : Unit),
      parse_null s = some (u, some t) → s = "null".toList ++ t) ∧
    (∀ (s t : List Char) (b : Bool),
      parse_bool s = some (b, some t) → s = "true".toList ++ t ∨ s = "false".toList ++ t) ∧
    (∀ (s t : List Char) (q : ℚ),
      parse_number s = some (q, some t) → ∃ n, t = s.drop n) ∧
    (∀ (s t v : List Char),
      parse_string s = some (v, some t) → ∃ n, t = s.drop n) ∧
    (∀ (tok rest : List Char) (q : ℚ),
      parse_number tok = some (q, none) →
      (∀ c, rest.head? = some c → isWs c = true) →
      parse_number (tok ++ rest) = some (q, emptyToNone rest)) ∧
    (∀ (tok rest v : List Char),
      parse_string tok = some (v, none) →
      parse_string (tok ++ rest) = some (v, emptyToNone rest)) ∧
    (∀ (s t : List Char) (vs : List Value),
      parse_array s = some (vs, some t) → ∀ c, t.head? = some c → isWs c = false) ∧
    (∀ (s t : List Char) (kvs : List (List Char × Value)),
      parse_object s = some (kvs, some t) → ∀ c, t.head? = some c → isWs c = false) := by
  refine ⟨?_, ?_, ?_, ?_, ?_, ?_, ?_, ?_⟩
  · intro s t u h; exact (parse_null_rem h).1
  · intro s t b h; exact (parse_bool_rem h).1
  · intro s t q h; exact (parse_number_rem h).1
  · intro s t v h; exact (parse_string_rem h).1
  · intro tok rest q h hws; exact parse_number_ext hws h
  · intro tok rest v h; exact parse_string_ext h
  · intro s t vs h
    unfold parse_array at h
    exact (parse_arrayF_rem _ s vs t h).2.2
  · intro s t kvs h
    unfold parse_object at h
    exact (parse_objectF_rem _ s kvs t h).2.2

/-- C3 witness: the amended statement applied to concrete runs of all six
recognizers, including the verbatim-tail conjuncts for number (token `"1"`
with the whitespace-led tail `" 2"`) and string (token `"\"a\""` with the
tail `" b"`). -/
theorem C3_remainder_raw_scalars_trimmed_composites_witness :
    ("null x".toList = "null".toList ++ " x".toList) ∧
    ("trueZ".toList = "true".toList ++ "Z".toList ∨ "trueZ".toList = "false".toList ++ "Z".toList) ∧
    (∃ n, " 2".toList = "1 2".toList.drop n) ∧
    (∃ n, "x".toList = "\"a\"x".toList.drop n) ∧
    (parse_number ("1".toList ++ " 2".toList) = some (1, emptyToNone (" 2".toList))) ∧
    (parse_string ("\"a\"".toList ++ " b".toList) = some ("a".toList, emptyToNone (" b".toList))) ∧
    (∀ c, "x".toList.head? = some c → isWs c = false) ∧
    (∀ c, "x".toList.head? = some c → isWs c = false) :=
  ⟨C3_remainder_raw_scalars_trimmed_composites.1 ("null x".toList) (" x".toList) () rfl,
   C3_remainder_raw_scalars_trimmed_composites.2.1 ("trueZ".toList) ("Z".toList) true rfl,
   C3_remainder_raw_scalars_trimmed_composites.2.2.1 ("1 2".toList) (" 2".toList) 1 rfl,
   C3_remainder_raw_scalars_trimmed_composites.2.2.2.1 ("\"a\"x".toList) ("x".toList) ("a".toList) rfl,
   C3_remainder_raw_scalars_trimmed_composites.2.2.2.2.1 ("1".toList) (" 2".toList) 1 rfl
     (by intro c hc; cases hc; rfl),
   C3_remainder_raw_scalars_trimmed_composites.2.2.2.2.2.1 ("\"a\"".toList) (" b".toList)
     ("a".toList) rfl,
   C3_remainder_raw_scalars_trimmed_composites.2.2.2.2.2.2.1 ("[] x".toList) ("x".toList) [] rfl,
   C3_remainder_raw_scalars_trimmed_composites.2.2.2.2.2.2.2 ("{} x".toList) ("x".toList) [] rfl⟩

set_option exponentiation.threshold 1200 in
set_option maxRecDepth 8000 in
/-- C4: the number claim fails on the code: the grammar admits `"1e309"`,
which parses to the exact rational `10 ^ 309` (the embedding's lossless
model of the `f64` the code stores), and that value is at least
`2 ^ 1024 - 2 ^ 971`, the binary64 overflow threshold — the least magnitude
that rounds to `+∞` under round-to-nearest-even.  Rust's
`str::parse::<f64>` therefore returns `f64::INFINITY` for this token, so
`parse` yields a non-finite `Number`, contrary to the claim. -/
theorem C4_number_overflows_binary64 :
    parse ("1e309".toList) = some (some (Value.number (mkRat (10 ^ 309) 1)), none) ∧
    mkRat (10 ^ 309) 1 = ((10 ^ 309 : ℕ) : ℚ) ∧
    (2 : ℚ) ^ 1024 - 2 ^ 971 ≤ ((10 ^ 309 : ℕ) : ℚ) := by
  refine ⟨rfl, rfl, ?_⟩
  rw [sub_le_iff_le_add]
  have hN : (2 : ℕ) ^ 1024 ≤ 10 ^ 309 + 2 ^ 971 := by decide
  exact_mod_cast hN

/-- C5: the string recognizer of `lib.rs` does NOT validate the four
characters after `\u` as hex digits (it only requires that they exist): the
input `"\uzzzz"` (whose `zzzz` are not hex digits) is accepted, with the raw
span `\uzzzz` as payload, contradicting the claim (and the spec's stated
intent) that such a string must fail to match. -/
theorem C5_u_escape_hex_not_checked :
    parse_string ("\"\\uzzzz\"".toList) = some ("\\uzzzz".toList, none) ∧
    parse ("\"\\uzzzz\"".toList) = some (some (Value.string ("\\uzzzz".toList)), none) :=
  ⟨rfl, rfl⟩

/-- C6: when the trimmed input is nonempty and none of the six recognizers
match it (the composite recognizers failing at every fuel), `parse` returns
the explicit failure `none` — the embedding is a total function, so no
abort is possible. -/
theorem C6_unmatched_input_fails_explicitly (s : List Char) (hne : trim s ≠ [])
    (h1 : parse_null (trim s) = none) (h2 : parse_bool (trim s) = none)
    (h3 : parse_number (trim s) = none) (h4 : parse_string (trim s) = none)
    (h5 : ∀ g, parse_arrayF g (trim s) = none)
    (h6 : ∀ g, parse_objectF g (trim s) = none) :
    parse s = none :=
  parseF_none _ s hne h1 h2 h3 h4 h5 h6

/-- C6 witness: the theorem applied at the unmatched input `"@"`. -/
theorem C6_unmatched_input_fails_explicitly_witness : parse ("@".toList) = none :=
  C6_unmatched_input_fails_explicitly ("@".toList) (by decide) rfl rfl rfl rfl
    (fun g => by cases g <;> rfl) (fun g => by cases g <;> rfl)

/-- C7: the number grammar rejects leading zeros (other than a lone `0`) and
a bare dot, and the four positive examples parse to exactly the claimed
values (`Number` modelled as the exact rational of the token): `123`,
`-123/1000`, `1/10` and `-11`. -/
theorem C7_number_grammar :
    parse ("01".toList) = none ∧
    parse (".5".toList) = none ∧
    parse ("123".toList) = some (some (Value.number 123), none) ∧
    parse ("-0.123".toList) = some (some (Value.number (mkRat (-123) 1000)), none) ∧
    parse ("1e-1".toList) = some (some (Value.number (mkRat 1 10)), none) ∧
    parse ("-1.1e1".toList) = some (some (Value.number (-11)), none) :=
  ⟨rfl, rfl, rfl, rfl, rfl, rfl⟩

/-- C8: the null and boolean recognizers are exact case-sensitive prefix
matchers with no boundary check: on `"null" ++ rest` (resp. `"true"`/
`"false"`), they match and hand back exactly `rest` (as `None` when `rest`
is empty, per the remainder convention), so `"nullify"` parses as `Null`
with remainder `"ify"`. -/
theorem C8_literal_prefix_no_boundary (rest : List Char) :
    parse_null ("null".toList ++ rest) = some ((), emptyToNone rest) ∧
    parse_bool ("true".toList ++ rest) = some (true, emptyToNone rest) ∧
    parse_bool ("false".toList ++ rest) = some (false, emptyToNone rest) ∧
    parse ("nullify".toList) = some (some Value.null, some ("ify".toList)) :=
  ⟨rfl, rfl, rfl, rfl⟩

/-- C9: duplicate object keys collapse to the last occurrence's value:
`{"a":1,"a":2}` produces the single binding `"a" ↦ 2`, and in general a
second insert under the same key overwrites the first. -/
theorem C9_duplicate_keys_last_write_wins :
    parse ("\x7b\"a\":1,\"a\":2\x7d".toList)
      = some (some (Value.object [("a".toList, Value.number 2)]), none) ∧
    (∀ (m : List (List Char × Value)) (k : List Char) (v1 v2 : Value),
      insertKV (insertKV m k v1) k v2 = insertKV m k v2) :=
  ⟨rfl, insertKV_overwrite⟩

/-- C10: whenever `parse` or any recognizer succeeds, the returned remainder
is `none` or `some t` with `t` a nonempty contiguous segment of the input;
`some []` is never returned (an empty tail is always normalized to
`none`). -/
theorem C10_remainder_none_or_nonempty_slice (s : List Char) :
    (∀ r t, parse s = some (r, some t) → t ≠ [] ∧ IsSlice t s) ∧
    (∀ vs t, parse_array s = some (vs, some t) → t ≠ [] ∧ IsSlice t s) ∧
    (∀ kvs t, parse_object s = some (kvs, some t) → t ≠ [] ∧ IsSlice t s) ∧
    (∀ v t, parse_string s = some (v, some t) → t ≠ [] ∧ IsSlice t s) ∧
    (∀ u t, parse_null s = some (u, some t) → t ≠ [] ∧ IsSlice t s) ∧
    (∀ b t, parse_bool s = some (b, some t) → t ≠ [] ∧ IsSlice t s) ∧
    (∀ q t, parse_number s = some (q, some t) → t ≠ [] ∧ IsSlice t s) := by
  refine ⟨?_, ?_, ?_, ?_, ?_, ?_, ?_⟩
  · intro r t h; exact parseF_rem _ s r t h
  · intro vs t h
    unfold parse_array at h
    obtain ⟨hne, hsl, -⟩ := parse_arrayF_rem _ s vs t h
    exact ⟨hne, hsl⟩
  · intro kvs t h
    unfold parse_object at h
    obtain ⟨hne, hsl, -⟩ := parse_objectF_rem _ s kvs t h
    exact ⟨hne, hsl⟩
  · intro v t h
    obtain ⟨⟨n, rfl⟩, hne⟩ := parse_string_rem h
    exact ⟨hne, slice_drop s n⟩
  · intro u t h
    obtain ⟨hs, hne⟩ := parse_null_rem h
    exact ⟨hne, ⟨"null".toList, [], by simp [hs]⟩⟩
  · intro b t h
    obtain ⟨hs, hne⟩ := parse_bool_rem h
    refine ⟨hne, ?_⟩
    rcases hs with hs | hs
    · exact ⟨"true".toList, [], by simp [hs]⟩
    · exact ⟨"false".toList, [], by simp [hs]⟩
  · intro q t h
    obtain ⟨⟨n, rfl⟩, hne⟩ := parse_number_rem h
    exact ⟨hne, slice_drop s n⟩

/-- C10 witness: the invariant instantiated on concrete successful runs of
`parse` and of each recognizer. -/
theorem C10_remainder_none_or_nonempty_slice_witness :
    (" x".toList ≠ [] ∧ IsSlice (" x".toList) "null x".toList) ∧
    ("x".toList ≠ [] ∧ IsSlice ("x".toList) "[] x".toList) ∧
    ("x".toList ≠ [] ∧ IsSlice ("x".toList) "{} x".toList) ∧
    (" b".toList ≠ [] ∧ IsSlice (" b".toList) "\"a\" b".toList) ∧
    ("ify".toList ≠ [] ∧ IsSlice ("ify".toList) "nullify".toList) ∧
    ("X".toList ≠ [] ∧ IsSlice ("X".toList) "trueX".toList) ∧
    (" 2".toList ≠ [] ∧ IsSlice (" 2".toList) "1 2".toList) :=
  ⟨(C10_remainder_none_or_nonempty_slice ("null x".toList)).1 (some Value.null) " x".toList rfl,
   (C10_remainder_none_or_nonempty_slice ("[] x".toList)).2.1 [] "x".toList rfl,
   (C10_remainder_none_or_nonempty_slice ("{} x".toList)).2.2.1 [] "x".toList rfl,
   (C10_remainder_none_or_nonempty_slice ("\"a\" b".toList)).2.2.2.1 ("a".toList) " b".toList rfl,
   (C10_remainder_none_or_nonempty_slice ("nullify".toList)).2.2.2.2.1 () "ify".toList rfl,
   (C10_remainder_none_or_nonempty_slice ("trueX".toList)).2.2.2.2.2.1 true ("X".toList) rfl,
   (C10_remainder_none_or_nonempty_slice ("1 2".toList)).2.2.2.2.2.2 1 (" 2".toList) rfl⟩
